import Mathlib

/-!
Verification of the match-timeline and frame-analysis core of the repository.

The development shallowly embeds the Python sources:

* `game_state_service.py` (deep merge, snapshot insertion, end-of-game) —
  section `GameState`;
* `champion_matcher.py` (ROI scaling, subdivision, score ranking) —
  section `ChampionMatcher`;
* `health_detection_service.py` / `mana_detection_service.py`
  (ROI scaling, bar percentage) — section `Bars`;
* `red_players_detection.py` (small-fragment clustering) — section `RedBars`.

Python dicts are embedded as insertion-ordered association lists (assignment
to an existing key keeps its position, a fresh key is appended), matching
CPython semantics.  Exceptions are embedded as `Except` errors.  Floating
point arithmetic of the sources is idealised over `ℚ`; `int(...)` is
truncation toward zero and `round(x, 1)` is round-half-to-even, as in Python.
-/

namespace GameState

/-- JSON-compatible values stored in a timeline: numbers, strings and nested
objects (objects are insertion-ordered key/value lists, as Python dicts). -/
inductive JVal where
  | num (n : Int)
  | str (s : String)
  | obj (m : List (String × JVal))

/-- Entry list of a JSON object. -/
abbrev JObj := List (String × JVal)

/-- Python `d.get(k)`: first (unique, for genuine dicts) binding of `k`. -/
def dictGet : JObj → String → Option JVal
  | [], _ => none
  | (k', v') :: rest, k => if k' = k then some v' else dictGet rest k

/-- Python `d[k] = v`: replace the binding in place if the key exists,
otherwise append it, preserving insertion order. -/
def dictSet : JObj → String → JVal → JObj
  | [], k, v => [(k, v)]
  | (k', v') :: rest, k, v =>
      if k' = k then (k, v) :: rest else (k', v') :: dictSet rest k v

/-- Whether a value is a nested mapping (Python `isinstance(v, dict)`). -/
def JVal.isObj : JVal → Bool
  | .obj _ => true
  | _ => false

/-- Embedding of `_deep_merge` (game_state_service.py lines 62–66).  The
incoming argument is always a dict at every call site (`isinstance` guard),
so it is given as a `JObj`; the destination may be any value.  Python raises
(`AttributeError` on `dst.get` or `TypeError` on `dst[k] = …`) as soon as a
non-dict destination is touched by a non-empty incoming dict; this is the
`.error` case.  A non-dict destination merged with an empty dict is returned
unchanged, since the `for` loop body never runs. -/
def deepMerge (dst : JVal) : JObj → Except String JVal
  | [] => .ok dst
  | (k, v) :: rest =>
      match dst with
      | .obj m =>
          match v with
          | .obj vm =>
              match deepMerge ((dictGet m k).getD (.obj [])) vm with
              | .ok merged => deepMerge (.obj (dictSet m k merged)) rest
              | .error e => .error e
          | _ => deepMerge (.obj (dictSet m k v)) rest
      | _ => .error "TypeError: item assignment on non-dict"

/-- Spec-side merge, for comparison with the code's `deepMerge`.  Follows the
spec's words: "for every key present in the incoming fragment, if **both**
sides are nested mappings they are merged recursively, otherwise the incoming
value replaces the existing one."  Total by construction. -/
def specDeepMerge (dst : JObj) : JObj → JObj
  | [] => dst
  | (k, v) :: rest =>
      match dictGet dst k, v with
      | some (.obj m), .obj vm => specDeepMerge (dictSet dst k (.obj (specDeepMerge m vm))) rest
      | _, _ => specDeepMerge (dictSet dst k v) rest

/-- The `live_game_info` map of a `GameTimeline`: canonical time key →
snapshot fragment.  The `static_game_info` draft record is not touched by any
modelled operation, so the timeline is embedded as this map alone. -/
abbrev LiveInfo := JObj

/-- Python `f"{n:02d}"`: decimal rendering padded to at least two digits. -/
def pad2 (n : Int) : String :=
  if 0 ≤ n ∧ n < 10 then "0" ++ toString n else toString n

/-- Timer normalisation of `add_or_update_snapshot` (lines 142–146): a
numeric timer `secs` becomes the key `f"{secs // 60:02d}:{secs % 60:02d}"`
(Python floor division and modulo), a string timer is used verbatim. -/
def timerKey : Int ⊕ String → String
  | .inl secs => pad2 (secs.fdiv 60) ++ ":" ++ pad2 (secs.fmod 60)
  | .inr s => s

/-- Embedding of `add_or_update_snapshot` (lines 126–149) restricted to the
in-memory timeline transformation between `_load` and `_save`: the incoming
snapshot dict is deep-merged into the existing fragment at the normalised
key (missing key defaults to `{}`), and the result is stored at that key.
A raised merge error propagates before `_save`, so the persisted state is
unchanged in that case. -/
def add_or_update_snapshot (tl : LiveInfo) (timer : Int ⊕ String) (snap : JObj) :
    Except String LiveInfo :=
  let key := timerKey timer
  match deepMerge ((dictGet tl key).getD (.obj [])) snap with
  | .ok v => .ok (dictSet tl key v)
  | .error e => .error e

/-- Digit-string parser: `some` of the value when the character list is a
non-empty run of ASCII digits. -/
def parseDigits : List Char → Option Nat
  | [] => none
  | cs =>
      if cs.all (·.isDigit) then
        some (cs.foldl (fun acc c => 10 * acc + (c.toNat - 48)) 0)
      else none

/-- Python `int(s)` on the strings this service encounters: an optional sign
followed by decimal digits (whitespace/underscore tolerance of CPython is
irrelevant to every key produced or consumed here). -/
def parseIntChars (cs : List Char) : Option Int :=
  match cs with
  | '-' :: rest => (parseDigits rest).map (fun n => -(n : Int))
  | '+' :: rest => (parseDigits rest).map (fun n => (n : Int))
  | l => (parseDigits l).map (fun n => (n : Int))

/-- Python `s.split(":")` over the character list: maximal runs between
colons, keeping empty runs (`"winner".split(":") == ["winner"]`,
`"10:35".split(":") == ["10", "35"]`). -/
def splitCols : List Char → List (List Char)
  | [] => [[]]
  | c :: rest =>
      match splitCols rest with
      | [] => []
      | g :: gs => if c = ':' then [] :: g :: gs else (c :: g) :: gs

/-- Key function of `end_game`'s `max` call (line 158):
`int(k.split(":")[0]) * 60 + int(k.split(":")[1])`.  `none` models the
`IndexError` (no `":"` in the key) or `ValueError` (non-numeric part) the
expression raises. -/
def parseTimeKey (k : String) : Option Int :=
  match splitCols k.data with
  | p0 :: p1 :: _ => do
      let m ← parseIntChars p0
      let s ← parseIntChars p1
      pure (m * 60 + s)
  | _ => none

/-- Errors of `end_game`: the `RuntimeError("No snapshots …")` and the
exception escaping from `max` when a key fails to parse as `MM:SS`. -/
inductive EndErr where
  | noSnapshots
  | keyError (k : String)
deriving DecidableEq

/-- Python `max(ks, key=parseTimeKey)` given the running best: iterates left
to right, raising at the first unparseable key, keeping the first maximal
element otherwise. -/
def maxByTimeGo (best : String) (bestVal : Int) : List String → Except String String
  | [] => .ok best
  | k :: rest =>
      match parseTimeKey k with
      | none => .error k
      | some v => if bestVal < v then maxByTimeGo k v rest else maxByTimeGo best bestVal rest

/-- Python `max(ks, key=parseTimeKey)` over a key list. -/
def maxByTime : List String → Except String String
  | [] => .error ""
  | k :: rest =>
      match parseTimeKey k with
      | none => .error k
      | some v => maxByTimeGo k v rest

/-- Keys of the timeline besides `startGame`/`endGame`
(`usable` in `end_game`, line 155). -/
def usableKeys (tl : LiveInfo) : List String :=
  (tl.map Prod.fst).filter (fun k => k ≠ "startGame" && k ≠ "endGame")

/-- Embedding of `end_game` (lines 152–161) as the in-memory timeline
transformation: collect the usable keys, raise `NoSnapshots` when there are
none, otherwise pick the key whose `MM:SS` parse is largest, copy its
snapshot under `endGame` (deep copy is the identity functionally) and record
the winner string under `winner`. -/
def end_game (tl : LiveInfo) (winner : Int) : Except EndErr LiveInfo :=
  let usable := usableKeys tl
  if usable.isEmpty then .error .noSnapshots
  else
    match maxByTime usable with
    | .error k => .error (.keyError k)
    | .ok lastKey =>
        .ok (dictSet (dictSet tl "endGame" ((dictGet tl lastKey).getD (.obj [])))
              "winner" (.str (if winner = 0 then "BLUE" else "RED")))

end GameState

namespace ChampionMatcher

/-- Python `int(q)` on a rational: truncation toward zero. -/
def pyInt (q : ℚ) : Int := if 0 ≤ q then ⌊q⌋ else -⌊-q⌋

/-- Python `round(q)`: round half to even (banker's rounding). -/
def pyRoundQ (q : ℚ) : Int :=
  if q - ⌊q⌋ < 1 / 2 then ⌊q⌋
  else if 1 / 2 < q - ⌊q⌋ then ⌊q⌋ + 1
  else if ⌊q⌋ % 2 = 0 then ⌊q⌋ else ⌊q⌋ + 1

/-- Embedding of `scale_points` (champion_matcher.py lines 82–99).  Note the
order of the branches: the normalised test (which inspects only the
x-coordinates) is evaluated **before** the `ref_size` test. -/
def scale_points (points : List (ℚ × ℚ)) (fw fh : Int) (ref_size : Option (Int × Int)) :
    List (Int × Int) :=
  if ∀ p ∈ points, 0 ≤ p.1 ∧ p.1 ≤ 1 then
    points.map (fun p => (pyInt (p.1 * fw), pyInt (p.2 * fh)))
  else
    match ref_size with
    | some (rw, rh) =>
        points.map (fun p => (pyInt (p.1 * ((fw : ℚ) / (rw : ℚ))), pyInt (p.2 * ((fh : ℚ) / (rh : ℚ)))))
    | none => points.map (fun p => (pyInt p.1, pyInt p.2))

/-- Spec-side resolver, for comparison with the code's `scale_points`.
Follows the spec's words: "If `reference_size` is present: scale each point
by (frame_w/ref_w, frame_h/ref_h)", i.e. the reference resolution takes
precedence over the normalised-coordinates heuristic. -/
def scale_points_spec (points : List (ℚ × ℚ)) (fw fh : Int) (ref_size : Option (Int × Int)) :
    List (Int × Int) :=
  match ref_size with
  | some (rw, rh) =>
      points.map (fun p => (pyInt (p.1 * ((fw : ℚ) / (rw : ℚ))), pyInt (p.2 * ((fh : ℚ) / (rh : ℚ)))))
  | none =>
      if ∀ p ∈ points, 0 ≤ p.1 ∧ p.1 ≤ 1 then
        points.map (fun p => (pyInt (p.1 * fw), pyInt (p.2 * fh)))
      else points.map (fun p => (pyInt p.1, pyInt p.2))

/-- Embedding of `subdivide_roi` (lines 113–121): split the box into `n`
sub-boxes of width `(x2 - x1) // n` (Python floor division), the last one
ending at `x2` instead. -/
def subdivide_roi (box : Int × Int × Int × Int) (n : Nat) : List (Int × Int × Int × Int) :=
  let step := (box.2.2.1 - box.1).fdiv n
  (List.range n).map (fun (i : Nat) =>
    (box.1 + (i : Int) * step, box.2.1,
     if i < n - 1 then box.1 + ((i : Int) + 1) * step else box.2.2.1, box.2.2.2))

/-- Stable insertion into a count-descending score list: `x` goes before the
first element whose count is not above `x`'s own, so that elements with equal
counts keep their original relative order. -/
def insortDesc (x : String × Nat) : List (String × Nat) → List (String × Nat)
  | [] => [x]
  | y :: ys => if y.2 ≤ x.2 then x :: y :: ys else y :: insortDesc x ys

/-- Stable sort by match count descending, as Python's
`sorted(scores, key=lambda x: x[1], reverse=True)` (Timsort is stable). -/
def sortScoresDesc : List (String × Nat) → List (String × Nat)
  | [] => []
  | x :: xs => insortDesc x (sortScoresDesc xs)

/-- Tail of `_extract_and_match` (lines 183–193) given the per-reference
good-match counts `scores` (the cv2 feature extraction that produces them is
outside the embedding): rank by count descending with Python's stable sort
and keep the best `top_k`. -/
def extract_and_match_rank (scores : List (String × Nat)) (top_k : Nat := 5) :
    List (String × Nat) :=
  (sortScoresDesc scores).take top_k

/-- Seat labelling step of `_process_champion_select` (line 226):
`matches[0][0] if matches else "?"`. -/
def seatLabel (scores : List (String × Nat)) : String :=
  match extract_and_match_rank scores with
  | [] => "?"
  | m :: _ => m.1

/-- Lexicographic order on character lists by code point (the order Python
`<` uses on strings). -/
def charListLt : List Char → List Char → Bool
  | [], [] => false
  | [], _ :: _ => true
  | _ :: _, [] => false
  | a :: as, b :: bs =>
      if a.toNat < b.toNat then true
      else if b.toNat < a.toNat then false
      else charListLt as bs

/-- Lexicographic order on strings by code point. -/
def strLt (a b : String) : Bool := charListLt a.data b.data

/-- Spec-side seat labelling, for comparison with the code's `seatLabel`:
highest count wins and ties are broken deterministically by reference
identifier (lexicographically smallest wins). -/
def specSeatLabel (scores : List (String × Nat)) : String :=
  match scores with
  | [] => "?"
  | x :: xs =>
      (xs.foldl (fun best cur =>
        if best.2 < cur.2 ∨ (cur.2 = best.2 ∧ strLt cur.1 best.1) then cur else best) x).1

end ChampionMatcher

namespace Bars

open ChampionMatcher

/-- Embedding of `_scale_pts` as it appears identically in
health_detection_service.py (lines 39–45) and mana_detection_service.py
(lines 81–95).  Unlike the champion matcher's `scale_points`, the normalised
test here inspects **both** coordinates; it is still evaluated before the
reference-size test. -/
def scale_pts (pts : List (ℚ × ℚ)) (fw fh : Int) (ref : Option (Int × Int)) :
    List (Int × Int) :=
  if ∀ p ∈ pts, 0 ≤ p.1 ∧ p.1 ≤ 1 ∧ 0 ≤ p.2 ∧ p.2 ≤ 1 then
    pts.map (fun p => (pyInt (p.1 * fw), pyInt (p.2 * fh)))
  else
    match ref with
    | some (rw, rh) =>
        pts.map (fun p => (pyInt (p.1 * fw / (rw : ℚ)), pyInt (p.2 * fh / (rh : ℚ))))
    | none => pts.map (fun p => (pyInt p.1, pyInt p.2))

/-- Python `round(q, 1)`: scale by 10, round half to even, scale back. -/
def pyRound1 (q : ℚ) : ℚ := (pyRoundQ (10 * q) : ℚ) / 10

/-- Percentage reading of a detected bar (health_detection_service.py line 95
and mana_detection_service.py line 169): `round((w / max_w) * 100, 1)` where
`w` is the bar's width and `refW` the team's widest detected bar. -/
def bar_pct (w refW : Int) : ℚ := pyRound1 ((w : ℚ) / (refW : ℚ) * 100)

end Bars

namespace RedBars

/-- Constants of red_players_detection.py (lines 30–33). -/
def SMALL_W_MAX : Int := 75

/-- Maximum horizontal centre distance for clustering (line 33). -/
def X_GAP : Int := 150

/-- Maximum vertical centre distance for clustering (line 33). -/
def Y_GAP : Int := 15

/-- A detected fragment `(x, y, w, h, R, (H, S, V))` of `detectar_rects`. -/
structure Rect where
  x : Int
  y : Int
  w : Int
  h : Int
  rid : Nat
  hsv : Int × Int × Int
deriving DecidableEq, Repr

/-- Proximity test of the clustering loop (lines 89–94): the centres
`(x + w // 2, y + h // 2)` differ by at most `X_GAP` horizontally and
`Y_GAP` vertically. -/
def closeB (c s : Rect) : Bool :=
  |(c.x + c.w.fdiv 2) - (s.x + s.w.fdiv 2)| ≤ X_GAP ∧
  |(c.y + c.h.fdiv 2) - (s.y + s.h.fdiv 2)| ≤ Y_GAP

/-- Breadth-first growth of one cluster (the `while idx < len(grp)` loop,
lines 87–95): process the queue in order; every still-unused fragment close
to the current one joins the cluster and the queue.  Returns the finished
cluster in discovery order together with the fragments left unused. -/
def bfsClust : List Rect → List Rect → List Rect × List Rect
  | [], unused => ([], unused)
  | c :: queue, unused =>
      let near := unused.filter (fun s => closeB c s)
      let far := unused.filter (fun s => !(closeB c s))
      let rec_result := bfsClust (queue ++ near) far
      (c :: rec_result.1, rec_result.2)
termination_by queue unused => queue.length + 2 * unused.length
decreasing_by
  have hnear : (unused.filter (fun s => closeB c s)).length +
      (unused.filter (fun s => !(closeB c s))).length = unused.length := by
    have h := List.length_eq_length_filter_add (l := unused) (fun s => closeB c s)
    simpa using h.symm
  simp only [List.length_append, List.length_cons]
  omega

/-- The unused remainder of `bfsClust` never grows. -/
theorem bfsClust_snd_length_le (queue unused : List Rect) :
    (bfsClust queue unused).2.length ≤ unused.length := by
  induction queue, unused using bfsClust.induct with
  | case1 unused => simp [bfsClust]
  | case2 c queue unused near far ih =>
      simp only [bfsClust] at ih ⊢
      exact le_trans ih (List.length_filter_le _ unused)

/-- Outer clustering loop (`for i, r in enumerate(small)` skipping used
fragments, lines 85–96): repeatedly grow a cluster from the first unused
fragment. -/
def clusterize : List Rect → List (List Rect)
  | [] => []
  | r :: rest =>
      let grown := bfsClust [r] rest
      grown.1 :: clusterize grown.2
termination_by l => l.length
decreasing_by
  have := bfsClust_snd_length_le [r] rest
  simp only [List.length_cons]
  omega

/-- Merge of one non-singleton cluster (lines 99–110): bounding box of the
group, range id of its first member, and the area-weighted mean HSV colour
(`int(...)` of a nonnegative float division is embedded as floor division;
every cluster this code merges has positive total area). -/
def mergeGroup (grp : List Rect) : Option Rect :=
  match grp with
  | [] => none
  | [_] => none
  | r0 :: rs =>
      let xs := (r0 :: rs).map (·.x)
      let ys := (r0 :: rs).map (·.y)
      let xe := (r0 :: rs).map (fun r => r.x + r.w)
      let ye := (r0 :: rs).map (fun r => r.y + r.h)
      let x := xs.foldl min r0.x
      let y := ys.foldl min r0.y
      let w := xe.foldl max (r0.x + r0.w) - x
      let h := ye.foldl max (r0.y + r0.h) - y
      let areas := (r0 :: rs).map (fun r => r.w * r.h)
      let total := areas.sum
      let mh := (((r0 :: rs).zip areas).map (fun (p : Rect × Int) => p.1.hsv.1 * p.2)).sum.fdiv total
      let ms := (((r0 :: rs).zip areas).map (fun (p : Rect × Int) => p.1.hsv.2.1 * p.2)).sum.fdiv total
      let mv := (((r0 :: rs).zip areas).map (fun (p : Rect × Int) => p.1.hsv.2.2 * p.2)).sum.fdiv total
      some ⟨x, y, w, h, r0.rid, (mh, ms, mv)⟩

/-- Embedding of `fusionar_pequenos` (lines 79–111): fragments of width
`≥ SMALL_W_MAX` pass through unchanged; smaller ones are clustered by centre
proximity, singleton clusters are dropped, and each remaining cluster is
merged into its bounding rectangle. -/
def fusionar_pequenos (rects : List Rect) : List Rect :=
  let large := rects.filter (fun r => SMALL_W_MAX ≤ r.w)
  let small := rects.filter (fun r => r.w < SMALL_W_MAX)
  large ++ (clusterize small).filterMap mergeGroup

end RedBars

namespace GameState

/-- Well-formed JSON value: every object level has pairwise-distinct keys,
as is forced for any value deserialised from a Python dict / JSON document. -/
inductive JVal.WF : JVal → Prop
  | num (n : Int) : JVal.WF (.num n)
  | str (s : String) : JVal.WF (.str s)
  | obj (m : JObj) : (m.map Prod.fst).Nodup → (∀ p ∈ m, JVal.WF p.2) → JVal.WF (.obj m)

theorem dictGet_dictSet_self (m : JObj) (k : String) (v : JVal) :
    dictGet (dictSet m k v) k = some v := by
  induction m with
  | nil => simp [dictSet, dictGet]
  | cons p rest ih =>
      obtain ⟨pk, pv⟩ := p
      by_cases h : pk = k
      · simp [dictSet, dictGet, h]
      · simp [dictSet, dictGet, h, ih]

theorem dictGet_dictSet_ne (m : JObj) (k k' : String) (v : JVal) (h : k' ≠ k) :
    dictGet (dictSet m k v) k' = dictGet m k' := by
  have hk : ¬ k = k' := fun hh => h hh.symm
  induction m with
  | nil => simp [dictSet, dictGet, hk]
  | cons p rest ih =>
      obtain ⟨pk, pv⟩ := p
      by_cases hp : pk = k
      · subst hp
        simp [dictSet, dictGet, hk]
      · simp [dictSet, dictGet, hp, ih]

theorem dictSet_eq_append (m : JObj) (k : String) (v : JVal) (h : dictGet m k = none) :
    dictSet m k v = m ++ [(k, v)] := by
  induction m with
  | nil => simp [dictSet]
  | cons p rest ih =>
      obtain ⟨pk, pv⟩ := p
      by_cases hp : pk = k
      · simp [dictGet, hp] at h
      · simp only [dictGet, if_neg hp] at h
        simp [dictSet, hp, ih h]

theorem dictSet_eq_self (m : JObj) (k : String) (v : JVal) (h : dictGet m k = some v) :
    dictSet m k v = m := by
  induction m with
  | nil => simp [dictGet] at h
  | cons p rest ih =>
      obtain ⟨pk, pv⟩ := p
      by_cases hp : pk = k
      · simp only [dictGet, if_pos hp] at h
        cases h
        simp [dictSet, hp]
      · simp only [dictGet, if_neg hp] at h
        simp [dictSet, hp, ih h]

theorem map_fst_dictSet_of_get (m : JObj) (k : String) (v w : JVal)
    (h : dictGet m k = some w) : (dictSet m k v).map Prod.fst = m.map Prod.fst := by
  induction m with
  | nil => simp [dictGet] at h
  | cons p rest ih =>
      obtain ⟨pk, pv⟩ := p
      by_cases hp : pk = k
      · simp [dictSet, hp]
      · simp only [dictGet, if_neg hp] at h
        simp [dictSet, hp, ih h]

theorem dictGet_eq_none_of_not_mem (m : JObj) (k : String)
    (h : k ∉ m.map Prod.fst) : dictGet m k = none := by
  induction m with
  | nil => rfl
  | cons p rest ih =>
      simp only [List.map_cons, List.mem_cons, not_or] at h
      have h1 : ¬ p.1 = k := fun hh => h.1 hh.symm
      obtain ⟨pk, pv⟩ := p
      simp only [dictGet, if_neg h1]
      exact ih h.2

theorem mem_map_fst_of_dictGet (m : JObj) (k : String) (v : JVal)
    (h : dictGet m k = some v) : k ∈ m.map Prod.fst := by
  induction m with
  | nil => simp [dictGet] at h
  | cons p rest ih =>
      obtain ⟨pk, pv⟩ := p
      by_cases hp : pk = k
      · simp [hp]
      · simp only [dictGet, if_neg hp] at h
        simp [ih h]

theorem deepMerge_nil (dst : JVal) : deepMerge dst [] = .ok dst := rfl

/-- A successful merge into an object yields an object. -/
theorem deepMerge_ok_obj (inc : JObj) (m : JObj) (r : JVal)
    (h : deepMerge (.obj m) inc = .ok r) : ∃ rm : JObj, r = .obj rm := by
  induction inc generalizing m with
  | nil =>
      simp only [deepMerge, Except.ok.injEq] at h
      exact ⟨m, h.symm⟩
  | cons p rest ih =>
      obtain ⟨k, v⟩ := p
      cases v with
      | num n => exact ih _ h
      | str s => exact ih _ h
      | obj vm =>
          simp only [deepMerge] at h
          cases hm : deepMerge ((dictGet m k).getD (.obj [])) vm with
          | ok merged => rw [hm] at h; exact ih _ h
          | error e => rw [hm] at h; cases h

/-- Pointwise characterisation of a successful `deepMerge` of a fragment
with pairwise-distinct keys into an object. -/
theorem deepMerge_ok_get (inc : JObj) (dstm rm : JObj)
    (hnd : (inc.map Prod.fst).Nodup)
    (h : deepMerge (.obj dstm) inc = .ok (.obj rm)) (k : String) :
    (dictGet inc k = none → dictGet rm k = dictGet dstm k) ∧
    (∀ v, dictGet inc k = some v → v.isObj = false → dictGet rm k = some v) ∧
    (∀ vm, dictGet inc k = some (.obj vm) →
      ∃ u, deepMerge ((dictGet dstm k).getD (.obj [])) vm = .ok u ∧ dictGet rm k = some u) := by
  induction inc generalizing dstm with
  | nil =>
      simp only [deepMerge, Except.ok.injEq, JVal.obj.injEq] at h
      subst h
      refine ⟨fun _ => rfl, ?_, ?_⟩
      · intro v hv _; simp [dictGet] at hv
      · intro vm hvm; simp [dictGet] at hvm
  | cons p rest ih =>
      obtain ⟨k0, v0⟩ := p
      simp only [List.map_cons, List.nodup_cons] at hnd
      obtain ⟨hk0, hndr⟩ := hnd
      have hrest_k0 : dictGet rest k0 = none := by
        apply dictGet_eq_none_of_not_mem
        exact hk0
      -- reduce the merge of the head entry
      have main : ∃ newV : JVal,
          deepMerge (.obj (dictSet dstm k0 newV)) rest = .ok (.obj rm) ∧
          ((v0.isObj = false ∧ newV = v0) ∨
           (∃ vm0, v0 = .obj vm0 ∧
             deepMerge ((dictGet dstm k0).getD (.obj [])) vm0 = .ok newV)) := by
        cases v0 with
        | num n => exact ⟨.num n, h, .inl ⟨rfl, rfl⟩⟩
        | str s => exact ⟨.str s, h, .inl ⟨rfl, rfl⟩⟩
        | obj vm0 =>
            simp only [deepMerge] at h
            cases hm : deepMerge ((dictGet dstm k0).getD (.obj [])) vm0 with
            | ok merged =>
                rw [hm] at h
                exact ⟨merged, h, .inr ⟨vm0, rfl, hm⟩⟩
            | error e => rw [hm] at h; cases h
      obtain ⟨newV, hrest, hhead⟩ := main
      have bullets := ih (dictSet dstm k0 newV) hndr hrest
      by_cases hk : k0 = k
      · subst hk
        have hrm : dictGet rm k0 = some newV := by
          rw [bullets.1 hrest_k0, dictGet_dictSet_self]
        refine ⟨?_, ?_, ?_⟩
        · intro hnone; simp [dictGet] at hnone
        · intro v hv hvno
          simp only [dictGet, if_pos] at hv
          cases hv
          rcases hhead with ⟨_, hnv⟩ | ⟨vm0, hv0, _⟩
          · rw [hrm, hnv]
          · rw [hv0] at hvno; simp [JVal.isObj] at hvno
        · intro vm hvm
          simp only [dictGet, if_pos] at hvm
          cases hvm
          rcases hhead with ⟨hno, _⟩ | ⟨vm0, hv0, hmer⟩
          · simp [JVal.isObj] at hno
          · cases hv0
            exact ⟨newV, hmer, hrm⟩
      · have hget : ∀ w, dictGet ((k0, v0) :: rest) k = w ↔ dictGet rest k = w := by
          intro w; simp [dictGet, hk]
        have hsetget : dictGet (dictSet dstm k0 newV) k = dictGet dstm k :=
          dictGet_dictSet_ne _ _ _ _ (fun hh => hk hh.symm)
        refine ⟨?_, ?_, ?_⟩
        · intro hnone
          rw [bullets.1 ((hget none).mp hnone), hsetget]
        · intro v hv hvno
          exact bullets.2.1 v ((hget (some v)).mp hv) hvno
        · intro vm hvm
          obtain ⟨u, hu1, hu2⟩ := bullets.2.2 vm ((hget (some (.obj vm))).mp hvm)
          rw [hsetget] at hu1
          exact ⟨u, hu1, hu2⟩

/-- Merging a well-formed fragment whose keys are all absent from the
destination appends the fragment verbatim. -/
theorem deepMerge_disjoint (n : Nat) : ∀ (inc : JObj), sizeOf inc ≤ n →
    ∀ acc : JObj, JVal.WF (.obj inc) → (∀ p ∈ inc, dictGet acc p.1 = none) →
    deepMerge (.obj acc) inc = .ok (.obj (acc ++ inc)) := by
  induction n with
  | zero =>
      intro inc hsz
      exfalso
      cases inc <;> simp at hsz
  | succ n ih =>
      intro inc hsz acc hwf hdisj
      match inc with
      | [] => simp [deepMerge]
      | (k0, v0) :: rest =>
          have hwf' : (((k0, v0) :: rest).map Prod.fst).Nodup ∧
              ∀ p ∈ (k0, v0) :: rest, JVal.WF p.2 := by
            cases hwf with
            | obj _ h1 h2 => exact ⟨h1, h2⟩
          obtain ⟨hnd, hall⟩ := hwf'
          simp only [List.map_cons, List.nodup_cons] at hnd
          have hacc0 : dictGet acc k0 = none := hdisj _ (List.mem_cons_self _ _)
          have hset : dictSet acc k0 v0 = acc ++ [(k0, v0)] := dictSet_eq_append _ _ _ hacc0
          have hszrest : sizeOf rest ≤ n := by
            simp only [List.cons.sizeOf_spec] at hsz; omega
          have hwfrest : JVal.WF (.obj rest) :=
            .obj rest hnd.2 (fun p hp => hall p (List.mem_cons_of_mem _ hp))
          have hdisjrest : ∀ p ∈ rest, dictGet (dictSet acc k0 v0) p.1 = none := by
            intro p hp
            have hne : p.1 ≠ k0 := by
              intro hh
              exact hnd.1 (hh ▸ List.mem_map_of_mem Prod.fst hp)
            rw [dictGet_dictSet_ne _ _ _ _ hne]
            exact hdisj _ (List.mem_cons_of_mem _ hp)
          have happ : acc ++ (k0, v0) :: rest = (acc ++ [(k0, v0)]) ++ rest := by simp
          cases v0 with
          | num m =>
              show deepMerge (.obj (dictSet acc k0 (.num m))) rest = _
              rw [ih rest hszrest _ hwfrest hdisjrest, hset, happ]
          | str s =>
              show deepMerge (.obj (dictSet acc k0 (.str s))) rest = _
              rw [ih rest hszrest _ hwfrest hdisjrest, hset, happ]
          | obj vm0 =>
              have hszvm : sizeOf vm0 ≤ n := by
                simp only [List.cons.sizeOf_spec, Prod.mk.sizeOf_spec,
                  JVal.obj.sizeOf_spec] at hsz
                omega
              have hwfvm : JVal.WF (.obj vm0) := hall _ (List.mem_cons_self _ _)
              have hinner : deepMerge (.obj []) vm0 = .ok (.obj vm0) := by
                have := ih vm0 hszvm [] hwfvm (fun p _ => rfl)
                simpa using this
              show (match deepMerge ((dictGet acc k0).getD (.obj [])) vm0 with
                | .ok merged => deepMerge (.obj (dictSet acc k0 merged)) rest
                | .error e => .error e) = _
              rw [hacc0]
              simp only [Option.getD_none, hinner]
              rw [ih rest hszrest _ hwfrest hdisjrest, hset, happ]

theorem dictGet_isSome_of_mem (m : JObj) (k : String) (h : k ∈ m.map Prod.fst) :
    ∃ v, dictGet m k = some v := by
  induction m with
  | nil => simp at h
  | cons p rest ih =>
      obtain ⟨pk, pv⟩ := p
      by_cases hp : pk = k
      · exact ⟨pv, by simp [dictGet, hp]⟩
      · simp only [List.map_cons, List.mem_cons] at h
        rcases h with h | h
        · exact absurd h.symm hp
        · obtain ⟨v, hv⟩ := ih h
          exact ⟨v, by simp [dictGet, hp, hv]⟩

theorem map_fst_dictSet_sublist (m : JObj) (k : String) (v : JVal) (k' : String)
    (h : k' ∈ (dictSet m k v).map Prod.fst) : k' ∈ m.map Prod.fst ∨ k' = k := by
  induction m with
  | nil => simpa [dictSet] using h
  | cons p rest ih =>
      obtain ⟨pk, pv⟩ := p
      by_cases hp : pk = k
      · simp only [dictSet, if_pos hp, List.map_cons, List.mem_cons] at h
        rcases h with h | h
        · exact .inr h
        · exact .inl (by simp [h])
      · simp only [dictSet, if_neg hp, List.map_cons, List.mem_cons] at h
        rcases h with h | h
        · exact .inl (by simp [h])
        · rcases ih h with hh | hh
          · exact .inl (by simp [hh])
          · exact .inr hh

/-- `maxByTimeGo` over fully parseable keys succeeds with a maximal key. -/
theorem maxByTimeGo_ok_spec (ks : List String) : ∀ (best : String) (bestVal : Int),
    parseTimeKey best = some bestVal →
    (∀ k ∈ ks, (parseTimeKey k).isSome) →
    ∃ lk m, maxByTimeGo best bestVal ks = .ok lk ∧ (lk = best ∨ lk ∈ ks) ∧
      parseTimeKey lk = some m ∧ bestVal ≤ m ∧
      (∀ k ∈ ks, ∀ v, parseTimeKey k = some v → v ≤ m) := by
  induction ks with
  | nil =>
      intro best bestVal hb _
      exact ⟨best, bestVal, rfl, .inl rfl, hb, le_refl _, by simp⟩
  | cons k rest ih =>
      intro best bestVal hb hall
      obtain ⟨v, hv⟩ := Option.isSome_iff_exists.mp (hall k (List.mem_cons_self _ _))
      have hrest : ∀ k' ∈ rest, (parseTimeKey k').isSome :=
        fun k' h' => hall k' (List.mem_cons_of_mem _ h')
      simp only [maxByTimeGo, hv]
      by_cases hlt : bestVal < v
      · rw [if_pos hlt]
        obtain ⟨lk, m, h1, h2, h3, h4, h5⟩ := ih k v hv hrest
        refine ⟨lk, m, h1, ?_, h3, le_trans (le_of_lt hlt) h4, ?_⟩
        · rcases h2 with e | e
          · exact .inr (e ▸ List.mem_cons_self _ _)
          · exact .inr (List.mem_cons_of_mem _ e)
        · intro k' hk' v' hv'
          rcases List.mem_cons.mp hk' with e | e
          · subst e
            rw [hv] at hv'
            injection hv' with hv''
            exact hv'' ▸ h4
          · exact h5 k' e v' hv'
      · rw [if_neg hlt]
        obtain ⟨lk, m, h1, h2, h3, h4, h5⟩ := ih best bestVal hb hrest
        refine ⟨lk, m, h1, ?_, h3, h4, ?_⟩
        · rcases h2 with e | e
          · exact .inl e
          · exact .inr (List.mem_cons_of_mem _ e)
        · intro k' hk' v' hv'
          rcases List.mem_cons.mp hk' with e | e
          · subst e
            rw [hv] at hv'
            injection hv' with hv''
            exact hv'' ▸ le_trans (not_lt.mp hlt) h4
          · exact h5 k' e v' hv'

/-- Python `max(ks, key=…)` over a non-empty, fully parseable key list
succeeds and returns a key with maximal parse value. -/
theorem maxByTime_ok_spec (ks : List String) (hne : ks ≠ [])
    (hall : ∀ k ∈ ks, (parseTimeKey k).isSome) :
    ∃ lk m, maxByTime ks = .ok lk ∧ lk ∈ ks ∧ parseTimeKey lk = some m ∧
      (∀ k ∈ ks, ∀ v, parseTimeKey k = some v → v ≤ m) := by
  match ks with
  | [] => exact absurd rfl hne
  | k :: rest =>
      obtain ⟨v, hv⟩ := Option.isSome_iff_exists.mp (hall k (List.mem_cons_self _ _))
      have hrest : ∀ k' ∈ rest, (parseTimeKey k').isSome :=
        fun k' h' => hall k' (List.mem_cons_of_mem _ h')
      obtain ⟨lk, m, h1, h2, h3, h4, h5⟩ := maxByTimeGo_ok_spec rest k v hv hrest
      refine ⟨lk, m, ?_, ?_, h3, ?_⟩
      · simp only [maxByTime, hv]; exact h1
      · rcases h2 with e | e
        · exact e ▸ List.mem_cons_self _ _
        · exact List.mem_cons_of_mem _ e
      · intro k' hk' v' hv'
        rcases List.mem_cons.mp hk' with e | e
        · subst e
          rw [hv] at hv'
          injection hv' with hv''
          exact hv'' ▸ h4
        · exact h5 k' e v' hv'

/-- A successful `maxByTimeGo` run parsed every key it visited. -/
theorem maxByTimeGo_ok_all_parse (ks : List String) : ∀ (best : String) (bestVal : Int)
    (lk : String), maxByTimeGo best bestVal ks = .ok lk →
    ∀ k ∈ ks, (parseTimeKey k).isSome := by
  induction ks with
  | nil => intro _ _ _ _ k hk; simp at hk
  | cons k rest ih =>
      intro best bestVal lk h k' hk'
      cases hv : parseTimeKey k with
      | none => simp [maxByTimeGo, hv] at h
      | some v =>
          simp only [maxByTimeGo, hv] at h
          rcases List.mem_cons.mp hk' with e | e
          · subst e; simp [hv]
          · by_cases hlt : bestVal < v
            · rw [if_pos hlt] at h
              exact ih k v lk h k' e
            · rw [if_neg hlt] at h
              exact ih best bestVal lk h k' e

/-- A successful `maxByTime` run parsed every key of the list. -/
theorem maxByTime_ok_all_parse (ks : List String) (lk : String)
    (h : maxByTime ks = .ok lk) : ∀ k ∈ ks, (parseTimeKey k).isSome := by
  match ks with
  | [] => cases h
  | k :: rest =>
      cases hv : parseTimeKey k with
      | none => simp [maxByTime, hv] at h
      | some v =>
          simp only [maxByTime, hv] at h
          intro k' hk'
          rcases List.mem_cons.mp hk' with e | e
          · subst e; simp [hv]
          · exact maxByTimeGo_ok_all_parse rest k v lk h k' e

/-- `maxByTimeGo` raises at the first unparseable key: with parseable keys
followed by a bad one, the bad key is the reported error. -/
theorem maxByTimeGo_append_bad (ks : List String) : ∀ (best : String) (bestVal : Int)
    (bad : String), (∀ k ∈ ks, (parseTimeKey k).isSome) → parseTimeKey bad = none →
    maxByTimeGo best bestVal (ks ++ [bad]) = .error bad := by
  induction ks with
  | nil =>
      intro best bestVal bad _ hbad
      simp [maxByTimeGo, hbad]
  | cons k rest ih =>
      intro best bestVal bad hall hbad
      obtain ⟨v, hv⟩ := Option.isSome_iff_exists.mp (hall k (List.mem_cons_self _ _))
      have hrest : ∀ k' ∈ rest, (parseTimeKey k').isSome :=
        fun k' h' => hall k' (List.mem_cons_of_mem _ h')
      simp only [List.cons_append, maxByTimeGo, hv]
      by_cases hlt : bestVal < v
      · rw [if_pos hlt]; exact ih k v bad hrest hbad
      · rw [if_neg hlt]; exact ih best bestVal bad hrest hbad

/-- `maxByTime` over parseable keys followed by an unparseable one raises
with that key. -/
theorem maxByTime_append_bad (ks : List String)
    (hall : ∀ k ∈ ks, (parseTimeKey k).isSome) (bad : String)
    (hbad : parseTimeKey bad = none) : maxByTime (ks ++ [bad]) = .error bad := by
  match ks with
  | [] => simp [maxByTime, hbad]
  | k :: rest =>
      obtain ⟨v, hv⟩ := Option.isSome_iff_exists.mp (hall k (List.mem_cons_self _ _))
      have hrest : ∀ k' ∈ rest, (parseTimeKey k').isSome :=
        fun k' h' => hall k' (List.mem_cons_of_mem _ h')
      simp only [List.cons_append, maxByTime, hv]
      exact maxByTimeGo_append_bad rest k v bad hrest hbad

/-- Setting `endGame` (whether inserting or overwriting) does not change the
usable keys. -/
theorem usableKeys_dictSet_endGame (tl : LiveInfo) (v : JVal) :
    usableKeys (dictSet tl "endGame" v) = usableKeys tl := by
  induction tl with
  | nil => simp [dictSet, usableKeys]
  | cons p rest ih =>
      obtain ⟨pk, pv⟩ := p
      by_cases hp : pk = "endGame"
      · subst hp
        simp [dictSet, usableKeys]
      · simp only [dictSet, if_neg hp, usableKeys, List.map_cons, List.filter_cons] at ih ⊢
        rw [ih]

/-- Setting an absent key other than `startGame`/`endGame` appends it to the
usable keys. -/
theorem usableKeys_dictSet_append (tl : LiveInfo) (k : String) (v : JVal)
    (habs : dictGet tl k = none) (hk1 : k ≠ "startGame") (hk2 : k ≠ "endGame") :
    usableKeys (dictSet tl k v) = usableKeys tl ++ [k] := by
  rw [dictSet_eq_append _ _ _ habs]
  simp [usableKeys, List.filter_append, hk1, hk2]

/-- Every usable key is a key of the timeline. -/
theorem mem_of_mem_usableKeys (tl : LiveInfo) (k : String) (h : k ∈ usableKeys tl) :
    k ∈ tl.map Prod.fst :=
  List.mem_of_mem_filter h

end GameState

namespace ChampionMatcher

/-- Horizontal pixel span of a box, as a half-open integer interval. -/
def boxIco (b : Int × Int × Int × Int) : Set Int := Set.Ico b.1 b.2.2.1

theorem chain_le_of_succ_le (f : ℕ → ℤ) : ∀ (k : ℕ), (∀ i, i < k → f i ≤ f (i + 1)) →
    f 0 ≤ f k := by
  intro k
  induction k with
  | zero => intro _; exact le_refl _
  | succ k ih =>
      intro h
      exact le_trans (ih (fun i hi => h i (Nat.lt_succ_of_lt hi))) (h k (Nat.lt_succ_self k))

/-- A chain of adjacent `Ico` intervals tiles the interval between its
endpoints. -/
theorem ico_chain_union (f : ℕ → ℤ) : ∀ (k : ℕ), (∀ i, i < k → f i ≤ f (i + 1)) →
    (⋃ i ∈ Finset.range k, Set.Ico (f i) (f (i + 1))) = Set.Ico (f 0) (f k) := by
  intro k
  induction k with
  | zero => intro _; simp
  | succ k ih =>
      intro h
      rw [Finset.range_succ, Finset.set_biUnion_insert, Set.union_comm,
        ih (fun i hi => h i (Nat.lt_succ_of_lt hi)),
        Set.Ico_union_Ico_eq_Ico (chain_le_of_succ_le f k
          (fun i hi => h i (Nat.lt_succ_of_lt hi))) (h k (Nat.lt_succ_self k))]

/-- Python `int()` agrees with the floor on nonnegative rationals. -/
theorem pyInt_eq_floor (q : ℚ) (h : 0 ≤ q) : pyInt q = ⌊q⌋ := if_pos h

theorem pyRoundQ_bounds (q : ℚ) : ⌊q⌋ ≤ pyRoundQ q ∧ pyRoundQ q ≤ ⌊q⌋ + 1 := by
  unfold pyRoundQ
  split_ifs <;> omega

/-- Python `round` is monotone. -/
theorem pyRoundQ_mono {a b : ℚ} (hab : a ≤ b) : pyRoundQ a ≤ pyRoundQ b := by
  rcases lt_or_eq_of_le (Int.floor_le_floor hab) with h | h
  · calc pyRoundQ a ≤ ⌊a⌋ + 1 := (pyRoundQ_bounds a).2
      _ ≤ ⌊b⌋ := by omega
      _ ≤ pyRoundQ b := (pyRoundQ_bounds b).1
  · unfold pyRoundQ
    rw [← h]
    split_ifs <;> first | omega | linarith

theorem pyRoundQ_intCast (n : Int) : pyRoundQ ((n : Int) : ℚ) = n := by
  unfold pyRoundQ
  rw [Int.floor_intCast]
  norm_num

theorem insortDesc_ne_nil (x : String × Nat) (l : List (String × Nat)) :
    insortDesc x l ≠ [] := by
  cases l with
  | nil => simp [insortDesc]
  | cons y ys =>
      unfold insortDesc
      split_ifs <;> simp

theorem sortScoresDesc_eq_nil (l : List (String × Nat)) (h : sortScoresDesc l = []) :
    l = [] := by
  cases l with
  | nil => rfl
  | cons x xs => exact absurd h (insortDesc_ne_nil x (sortScoresDesc xs))

/-- The head of the stable descending sort is the first entry of the input
attaining the maximal count. -/
theorem sortScoresDesc_head_firstMax : ∀ (scores : List (String × Nat)) (x : String × Nat)
    (rest : List (String × Nat)), sortScoresDesc scores = x :: rest →
    ∃ pre post, scores = pre ++ x :: post ∧ (∀ p ∈ pre, p.2 < x.2) ∧
      (∀ p ∈ scores, p.2 ≤ x.2) := by
  intro scores
  induction scores with
  | nil => intro x rest h; cases h
  | cons y ys ih =>
      intro x rest h
      unfold sortScoresDesc at h
      cases hys : sortScoresDesc ys with
      | nil =>
          have hys' : ys = [] := sortScoresDesc_eq_nil ys hys
          rw [hys'] at ih h ⊢
          simp only [sortScoresDesc, insortDesc] at h
          cases h
          exact ⟨[], [], rfl, by simp, by simp⟩
      | cons z zs =>
          rw [hys] at h
          obtain ⟨pre, post, hdec, hpre, hall⟩ := ih z zs hys
          unfold insortDesc at h
          by_cases hcmp : z.2 ≤ y.2
          · rw [if_pos hcmp] at h
            injection h with h1 _
            subst h1
            refine ⟨[], ys, rfl, by simp, ?_⟩
            intro p hp
            rcases List.mem_cons.mp hp with e | e
            · exact e ▸ le_refl _
            · exact le_trans (hall p e) hcmp
          · rw [if_neg hcmp] at h
            injection h with h1 _
            subst h1
            refine ⟨y :: pre, post, by rw [hdec, List.cons_append], ?_, ?_⟩
            · intro p hp
              rcases List.mem_cons.mp hp with e | e
              · subst e; omega
              · exact hpre p e
            · intro p hp
              rcases List.mem_cons.mp hp with e | e
              · subst e; omega
              · exact hall p e

end ChampionMatcher

open GameState ChampionMatcher Bars RedBars

/-- Claim C1 is false as stated: the code's recursion is keyed on the
*incoming* value alone, not on both sides being mappings.  At time key
`10:00` the existing fragment maps `a` to the scalar `5`; merging an
incoming `a ↦ @x7b@x7d` leaves the scalar in place (the spec-side merge would
replace it), and merging an incoming non-empty mapping raises a TypeError
instead of replacing. -/
theorem claim_C1_counterexample :
    add_or_update_snapshot [("startGame", .obj []), ("10:00", .obj [("a", .num 5)])]
        (.inr "10:00") [("a", .obj [])]
      = .ok [("startGame", .obj []), ("10:00", .obj [("a", .num 5)])] ∧
    specDeepMerge [("a", .num 5)] [("a", .obj [])] = [("a", .obj [])] ∧
    JVal.num 5 ≠ JVal.obj [] ∧
    deepMerge (.obj [("a", .num 5)]) [("a", .obj [("b", .num 1)])] =
      .error "TypeError: item assignment on non-dict" := by
  refine ⟨rfl, by simp [specDeepMerge, dictGet, dictSet], fun h => JVal.noConfusion h, rfl⟩

/-- Claim C1, amended.  For every started match, time key and fragment
(with pairwise-distinct keys, as any Python dict has) whose existing value
at that key is a mapping or missing, a successful `merge_snapshot` stores at
the key a fragment `rm` such that, for every inner key: an absent incoming
key leaves the existing value; a non-mapping incoming value replaces the
existing one; a mapping incoming value is recursively `deepMerge`d into the
existing value (an empty mapping when missing) regardless of whether the
existing value is a mapping.  Merging onto a missing time key inserts the
fragment verbatim. -/
theorem claim_C1_amended (tl : LiveInfo) (key : String) (frag dstm : JObj)
    (tl' : LiveInfo)
    (hnd : (frag.map Prod.fst).Nodup)
    (hdst : (dictGet tl key).getD (.obj []) = .obj dstm)
    (h : add_or_update_snapshot tl (.inr key) frag = .ok tl') :
    ∃ rm : JObj, dictGet tl' key = some (.obj rm) ∧
      (∀ k, dictGet frag k = none → dictGet rm k = dictGet dstm k) ∧
      (∀ k v, dictGet frag k = some v → v.isObj = false → dictGet rm k = some v) ∧
      (∀ k vm, dictGet frag k = some (.obj vm) →
        ∃ u, deepMerge ((dictGet dstm k).getD (.obj [])) vm = .ok u ∧
          dictGet rm k = some u) ∧
      (dictGet tl key = none → JVal.WF (.obj frag) → rm = frag) := by
  have hmain : ∃ r, deepMerge (.obj dstm) frag = .ok r ∧ tl' = dictSet tl key r := by
    simp only [add_or_update_snapshot, timerKey, hdst] at h
    cases hm : deepMerge (.obj dstm) frag with
    | ok r =>
        rw [hm] at h
        injection h with h'
        exact ⟨r, rfl, h'.symm⟩
    | error e => rw [hm] at h; cases h
  obtain ⟨r, hm, htl'⟩ := hmain
  obtain ⟨rm, hrm⟩ := deepMerge_ok_obj frag dstm r hm
  subst hrm
  subst htl'
  refine ⟨rm, by rw [dictGet_dictSet_self], ?_, ?_, ?_, ?_⟩
  · intro k hk; exact (deepMerge_ok_get frag dstm rm hnd hm k).1 hk
  · intro k v hk hv; exact (deepMerge_ok_get frag dstm rm hnd hm k).2.1 v hk hv
  · intro k vm hk; exact (deepMerge_ok_get frag dstm rm hnd hm k).2.2 vm hk
  · intro hnone hwf
    have hdstm : dstm = [] := by
      rw [hnone] at hdst
      have : JVal.obj [] = JVal.obj dstm := hdst
      cases this
      rfl
    subst hdstm
    have hins := deepMerge_disjoint (sizeOf frag) frag le_rfl [] hwf (fun p _ => rfl)
    simp only [List.nil_append] at hins
    rw [hins] at hm
    injection hm with h'
    cases h'
    rfl

/-- Witness for C1: merging the fragment `@x7b"a": 1@x7d` onto the missing
time key `00:10` of a freshly started timeline. -/
theorem claim_C1_witness :
    ∃ rm : JObj,
      dictGet [("startGame", JVal.obj []), ("00:10", JVal.obj [("a", JVal.num 1)])] "00:10"
        = some (.obj rm) ∧
      (∀ k, dictGet [("a", JVal.num 1)] k = none → dictGet rm k = dictGet [] k) ∧
      (∀ k v, dictGet [("a", JVal.num 1)] k = some v → v.isObj = false →
        dictGet rm k = some v) ∧
      (∀ k vm, dictGet [("a", JVal.num 1)] k = some (.obj vm) →
        ∃ u, deepMerge ((dictGet [] k).getD (.obj [])) vm = .ok u ∧ dictGet rm k = some u) ∧
      (dictGet [("startGame", JVal.obj [])] "00:10" = none →
        JVal.WF (.obj [("a", JVal.num 1)]) → rm = [("a", JVal.num 1)]) :=
  claim_C1_amended [("startGame", .obj [])] "00:10" [("a", .num 1)] []
    [("startGame", JVal.obj []), ("00:10", JVal.obj [("a", JVal.num 1)])]
    (by simp) rfl rfl

/-- Claim C6 is false as stated: merging the empty fragment at a *missing*
key is not a no-op — it inserts an empty snapshot at that key, so `read`
changes at that key. -/
theorem claim_C6_counterexample :
    add_or_update_snapshot [("startGame", .obj [])] (.inr "00:01") [] =
      .ok [("startGame", .obj []), ("00:01", .obj [])] ∧
    dictGet [("startGame", JVal.obj [])] "00:01" = none ∧
    dictGet [("startGame", JVal.obj []), ("00:01", JVal.obj [])] "00:01" =
      some (.obj []) :=
  ⟨rfl, rfl, rfl⟩

/-- Claim C6, amended: `merge_snapshot(title, key, @x7b@x7d)` leaves the value at
an already-present key unchanged (a genuine no-op), but at a missing key it
appends an empty fragment under that key, so `read(title)` is unchanged at
the key if and only if the key previously existed. -/
theorem claim_C6_amended (tl : LiveInfo) (key : String) :
    (∀ v, dictGet tl key = some v → add_or_update_snapshot tl (.inr key) [] = .ok tl) ∧
    (dictGet tl key = none →
      add_or_update_snapshot tl (.inr key) [] = .ok (tl ++ [(key, .obj [])])) := by
  constructor
  · intro v hv
    simp only [add_or_update_snapshot, timerKey, hv, Option.getD_some, deepMerge]
    rw [dictSet_eq_self tl key v hv]
  · intro hv
    simp only [add_or_update_snapshot, timerKey, hv, Option.getD_none, deepMerge]
    rw [dictSet_eq_append tl key _ hv]

/-- Witness for C6: the empty merge at the already-present key `05:00`. -/
theorem claim_C6_witness :
    add_or_update_snapshot [("05:00", JVal.num 7)] (.inr "05:00") [] =
      .ok [("05:00", JVal.num 7)] :=
  (claim_C6_amended [("05:00", .num 7)] "05:00").1 _ rfl

/-- Claim C2: `end(title, winner)` fails with `NoSnapshots` iff the timeline
has no key besides `startGame`/`endGame`; otherwise (provided, as the claim
presumes, that every other key is a parseable time key) it succeeds, picks a
key whose `minutes*60+seconds` parse is maximal — not the lexicographic
maximum — stores a copy of that snapshot under `endGame` and records the
winner. -/
theorem claim_C2 (tl : LiveInfo) (winner : Int)
    (hall : ∀ k ∈ usableKeys tl, (parseTimeKey k).isSome) :
    (end_game tl winner = .error .noSnapshots ↔ usableKeys tl = []) ∧
    (usableKeys tl ≠ [] →
      ∃ lk m tl2, lk ∈ usableKeys tl ∧ parseTimeKey lk = some m ∧
        (∀ k ∈ usableKeys tl, ∀ v, parseTimeKey k = some v → v ≤ m) ∧
        end_game tl winner = .ok tl2 ∧
        dictGet tl2 "endGame" = dictGet tl lk ∧
        dictGet tl2 "winner" = some (.str (if winner = 0 then "BLUE" else "RED"))) := by
  by_cases hus : usableKeys tl = []
  · have he : end_game tl winner = .error .noSnapshots := by
      simp [end_game, hus]
    exact ⟨⟨fun _ => hus, fun _ => he⟩, fun hn => absurd hus hn⟩
  · obtain ⟨lk, m, hmx, hmem, hpk, hmax⟩ := maxByTime_ok_spec _ hus hall
    have hne : ¬ (usableKeys tl).isEmpty := by
      simpa [List.isEmpty_iff] using hus
    have he : end_game tl winner =
        .ok (dictSet (dictSet tl "endGame" ((dictGet tl lk).getD (.obj [])))
              "winner" (.str (if winner = 0 then "BLUE" else "RED"))) := by
      simp [end_game, hne, hmx]
    constructor
    · constructor
      · intro hcontra
        rw [he] at hcontra
        cases hcontra
      · intro hcontra
        exact absurd hcontra hus
    · intro _
      obtain ⟨snap, hsnap⟩ := dictGet_isSome_of_mem tl lk (mem_of_mem_usableKeys tl lk hmem)
      refine ⟨lk, m, _, hmem, hpk, hmax, he, ?_, dictGet_dictSet_self _ _ _⟩
      rw [dictGet_dictSet_ne _ _ _ _ (by decide), dictGet_dictSet_self, hsnap]
      simp

/-- Witness for C2 on a timeline with keys `02:05`, `10:00` and `9:59`
(parse order `10:00 > 9:59`, lexicographic order the other way around). -/
theorem claim_C2_witness :
    (end_game [("startGame", JVal.obj []), ("02:05", JVal.num 3),
        ("10:00", JVal.num 4), ("9:59", JVal.num 5)] 1 = .error .noSnapshots ↔
      usableKeys [("startGame", JVal.obj []), ("02:05", JVal.num 3),
        ("10:00", JVal.num 4), ("9:59", JVal.num 5)] = []) ∧
    (usableKeys [("startGame", JVal.obj []), ("02:05", JVal.num 3),
        ("10:00", JVal.num 4), ("9:59", JVal.num 5)] ≠ [] →
      ∃ lk m tl2, lk ∈ usableKeys [("startGame", JVal.obj []), ("02:05", JVal.num 3),
          ("10:00", JVal.num 4), ("9:59", JVal.num 5)] ∧ parseTimeKey lk = some m ∧
        (∀ k ∈ usableKeys [("startGame", JVal.obj []), ("02:05", JVal.num 3),
            ("10:00", JVal.num 4), ("9:59", JVal.num 5)], ∀ v,
          parseTimeKey k = some v → v ≤ m) ∧
        end_game [("startGame", JVal.obj []), ("02:05", JVal.num 3),
          ("10:00", JVal.num 4), ("9:59", JVal.num 5)] 1 = .ok tl2 ∧
        dictGet tl2 "endGame" = dictGet [("startGame", JVal.obj []), ("02:05", JVal.num 3),
          ("10:00", JVal.num 4), ("9:59", JVal.num 5)] lk ∧
        dictGet tl2 "winner" = some (.str (if (1 : Int) = 0 then "BLUE" else "RED"))) :=
  claim_C2 [("startGame", JVal.obj []), ("02:05", JVal.num 3),
    ("10:00", JVal.num 4), ("9:59", JVal.num 5)] 1 (by decide)

/-- Claim C10: after a successful `end_game`, the winner marker sits in
`live_game_info` as an ordinary entry under the key `winner` (`"BLUE"` for
winner 0, `"RED"` otherwise); since `winner` is not excluded from the usable
keys, a second `end_game` on the result raises the key-parsing exception for
`"winner"`, not `NoSnapshots`. -/
theorem claim_C10 (tl tl2 : LiveInfo) (w w2 : Int)
    (h : end_game tl w = .ok tl2) :
    dictGet tl2 "winner" = some (.str (if w = 0 then "BLUE" else "RED")) ∧
    end_game tl2 w2 = .error (.keyError "winner") ∧
    EndErr.keyError "winner" ≠ EndErr.noSnapshots := by
  by_cases hus : (usableKeys tl).isEmpty
  · simp [end_game, hus] at h
  · cases hmx : maxByTime (usableKeys tl) with
    | error k => simp [end_game, hus, hmx] at h
    | ok lk =>
        have htl2 : tl2 = dictSet (dictSet tl "endGame" ((dictGet tl lk).getD (.obj [])))
            "winner" (.str (if w = 0 then "BLUE" else "RED")) := by
          simp only [end_game, hus, Bool.false_eq_true, if_false, hmx] at h
          injection h with h'
          exact h'.symm
        subst htl2
        have hall := maxByTime_ok_all_parse _ lk hmx
        have hwparse : parseTimeKey "winner" = none := rfl
        have hwnotin : "winner" ∉ tl.map Prod.fst := by
          intro hmem
          have hin : "winner" ∈ usableKeys tl :=
            List.mem_filter.mpr ⟨hmem, by decide⟩
          have := hall _ hin
          rw [hwparse] at this
          simp at this
        have hwnotin2 : "winner" ∉
            (dictSet tl "endGame" ((dictGet tl lk).getD (.obj []))).map Prod.fst := by
          intro hmem
          rcases map_fst_dictSet_sublist tl "endGame" _ _ hmem with hh | hh
          · exact hwnotin hh
          · exact absurd hh (by decide)
        have husable2 : usableKeys (dictSet (dictSet tl "endGame"
            ((dictGet tl lk).getD (.obj []))) "winner"
            (.str (if w = 0 then "BLUE" else "RED"))) = usableKeys tl ++ ["winner"] := by
          rw [usableKeys_dictSet_append _ "winner" _
              (dictGet_eq_none_of_not_mem _ _ hwnotin2) (by decide) (by decide),
            usableKeys_dictSet_endGame]
        have hmax2 : maxByTime (usableKeys tl ++ ["winner"]) = .error "winner" :=
          maxByTime_append_bad _ hall _ hwparse
        refine ⟨dictGet_dictSet_self _ _ _, ?_, by decide⟩
        have hne2 : ¬ (usableKeys (dictSet (dictSet tl "endGame"
            ((dictGet tl lk).getD (.obj []))) "winner"
            (.str (if w = 0 then "BLUE" else "RED")))).isEmpty := by
          rw [husable2]
          simp
        simp [end_game, hne2, husable2, hmax2]

/-- Witness for C10: ending the match `startGame / 05:30` once succeeds and
a second end raises the parsing error on `winner`. -/
theorem claim_C10_witness :
    dictGet [("startGame", JVal.obj []), ("05:30", JVal.num 1),
        ("endGame", JVal.num 1), ("winner", JVal.str "BLUE")] "winner" =
      some (.str (if (0 : Int) = 0 then "BLUE" else "RED")) ∧
    end_game [("startGame", JVal.obj []), ("05:30", JVal.num 1),
        ("endGame", JVal.num 1), ("winner", JVal.str "BLUE")] 1 =
      .error (.keyError "winner") ∧
    EndErr.keyError "winner" ≠ EndErr.noSnapshots :=
  claim_C10 [("startGame", JVal.obj []), ("05:30", JVal.num 1)]
    [("startGame", JVal.obj []), ("05:30", JVal.num 1),
      ("endGame", JVal.num 1), ("winner", JVal.str "BLUE")] 0 1 rfl

/-- Box produced at seat index `i` by `subdivide_roi` (used to reason about
the subdivision pointwise). -/
def subdivBox (x1 y1 x2 y2 : Int) (n : Nat) (i : Nat) : Int × Int × Int × Int :=
  (x1 + (i : Int) * ((x2 - x1).fdiv n), y1,
   if i < n - 1 then x1 + ((i : Int) + 1) * ((x2 - x1).fdiv n) else x2, y2)

theorem subdivide_roi_eq_map (x1 y1 x2 y2 : Int) (n : Nat) :
    subdivide_roi (x1, y1, x2, y2) n = (List.range n).map (subdivBox x1 y1 x2 y2 n) := by
  unfold subdivide_roi subdivBox
  rfl

/-- Claim C4: for every box with `x1 ≤ x2` and every `n ≥ 1`,
`subdivide_roi` returns `n` sub-boxes, each spanning the full y-extent and
left-to-right adjacent (each box starts where its predecessor stops, the
first at `x1`, the last stopping at `x2`); their horizontal spans tile
`[x1, x2)` exactly; all boxes but the last have width `(x2 - x1) // n`, and
the last absorbs the division remainder. -/
theorem claim_C4 (x1 y1 x2 y2 : Int) (n : Nat) (hn : 1 ≤ n) (hx : x1 ≤ x2) :
    (subdivide_roi (x1, y1, x2, y2) n).length = n ∧
    (∀ b ∈ subdivide_roi (x1, y1, x2, y2) n, b.2.1 = y1 ∧ b.2.2.2 = y2 ∧ b.1 ≤ b.2.2.1) ∧
    ((subdivide_roi (x1, y1, x2, y2) n)[0]?).map (fun b => b.1) = some x1 ∧
    ((subdivide_roi (x1, y1, x2, y2) n)[n - 1]?).map (fun b => b.2.2.1) = some x2 ∧
    (∀ i, i + 1 < n →
      ((subdivide_roi (x1, y1, x2, y2) n)[i + 1]?).map (fun b => b.1) =
        ((subdivide_roi (x1, y1, x2, y2) n)[i]?).map (fun b => b.2.2.1)) ∧
    (∀ i, i + 1 < n →
      ((subdivide_roi (x1, y1, x2, y2) n)[i]?).map (fun b => b.2.2.1 - b.1) =
        some ((x2 - x1).fdiv n)) ∧
    ((subdivide_roi (x1, y1, x2, y2) n)[n - 1]?).map (fun b => b.2.2.1 - b.1) =
      some ((x2 - x1).fdiv n + (x2 - x1).fmod n) ∧
    (⋃ b ∈ subdivide_roi (x1, y1, x2, y2) n, boxIco b) = Set.Ico x1 x2 := by
  have hnz : ((n : Int)) ≠ 0 := by
    have : (0 : Int) < (n : Int) := by exact_mod_cast hn
    omega
  have hstep : 0 ≤ (x2 - x1).fdiv n := Int.fdiv_nonneg (by omega) (by positivity)
  have hident : (n : Int) * ((x2 - x1).fdiv n) + (x2 - x1).fmod n = x2 - x1 :=
    Int.fdiv_add_fmod _ _
  have hr : 0 ≤ (x2 - x1).fmod n := by
    rw [Int.fmod_eq_emod _ (by positivity)]
    exact Int.emod_nonneg _ hnz
  have hlast : x1 + ((n : Int) - 1) * ((x2 - x1).fdiv n) ≤ x2 := by
    have hmul : ((n : Int) - 1) * ((x2 - x1).fdiv n) ≤ (n : Int) * ((x2 - x1).fdiv n) :=
      mul_le_mul_of_nonneg_right (by linarith) hstep
    linarith
  have hget : ∀ i, i < n →
      (subdivide_roi (x1, y1, x2, y2) n)[i]? = some (subdivBox x1 y1 x2 y2 n i) := by
    intro i hi
    rw [subdivide_roi_eq_map, List.getElem?_map, List.getElem?_range hi]
    rfl
  have hmono : ∀ i : Nat, i < n → i + 1 < n →
      x1 + (i : Int) * ((x2 - x1).fdiv n) ≤ x1 + ((i : Int) + 1) * ((x2 - x1).fdiv n) := by
    intro i _ _
    have := mul_le_mul_of_nonneg_right (by linarith : (i : Int) ≤ (i : Int) + 1) hstep
    linarith
  refine ⟨?_, ?_, ?_, ?_, ?_, ?_, ?_, ?_⟩
  · rw [subdivide_roi_eq_map]; simp
  · intro b hb
    rw [subdivide_roi_eq_map] at hb
    obtain ⟨i, hi, rfl⟩ := by
      simpa only [List.mem_map, List.mem_range] using hb
    refine ⟨rfl, rfl, ?_⟩
    simp only [subdivBox]
    by_cases h2 : i < n - 1
    · rw [if_pos h2]
      exact hmono i hi (by omega)
    · rw [if_neg h2]
      have hieq : (i : Int) = (n : Int) - 1 := by
        have hi' : i = n - 1 := by omega
        subst hi'
        push_cast [hn]
        ring
      rw [hieq]
      exact hlast
  · rw [hget 0 (by omega)]
    simp [subdivBox]
  · rw [hget (n - 1) (by omega)]
    simp [subdivBox]
  · intro i h2
    have hcond : i < n - 1 := by omega
    rw [hget (i + 1) h2, hget i (by omega)]
    simp only [subdivBox, if_pos hcond, Option.map_some', Option.some.injEq]
    push_cast
    ring
  · intro i h2
    have hcond : i < n - 1 := by omega
    rw [hget i (by omega)]
    simp only [subdivBox, if_pos hcond, Option.map_some', Option.some.injEq]
    ring
  · rw [hget (n - 1) (by omega)]
    simp only [subdivBox, lt_self_iff_false, if_false, Option.map_some', Option.some.injEq]
    have hcast : ((n - 1 : Nat) : Int) = (n : Int) - 1 := by push_cast [hn]; ring
    rw [hcast]
    have hexp : ((n : Int) - 1) * ((x2 - x1).fdiv n) =
        (n : Int) * ((x2 - x1).fdiv n) - (x2 - x1).fdiv n := by ring
    linarith
  · set f : ℕ → ℤ := fun j => if j < n then x1 + (j : Int) * ((x2 - x1).fdiv n) else x2
      with hf
    have hchain : ∀ i, i < n → f i ≤ f (i + 1) := by
      intro i hi
      rw [hf]
      simp only
      rw [if_pos hi]
      by_cases h2 : i + 1 < n
      · rw [if_pos h2]
        have := hmono i hi h2
        push_cast at this ⊢
        linarith
      · rw [if_neg h2]
        have hieq : (i : Int) = (n : Int) - 1 := by
          have hi' : i = n - 1 := by omega
          subst hi'
          push_cast [hn]
          ring
        rw [hieq]
        exact hlast
    have hbox : ∀ i, i < n → boxIco (subdivBox x1 y1 x2 y2 n i) =
        Set.Ico (f i) (f (i + 1)) := by
      intro i hi
      rw [hf]
      simp only [boxIco, subdivBox]
      rw [if_pos hi]
      by_cases h2 : i + 1 < n
      · rw [if_pos (by omega : i < n - 1), if_pos h2]
        have harith : x1 + ((i : Int) + 1) * ((x2 - x1).fdiv n) =
            x1 + ((i + 1 : Nat) : Int) * ((x2 - x1).fdiv n) := by push_cast; ring
        rw [harith]
      · rw [if_neg (by omega : ¬ i < n - 1), if_neg h2]
    have h1 : (⋃ b ∈ subdivide_roi (x1, y1, x2, y2) n, boxIco b) =
        ⋃ i ∈ Finset.range n, Set.Ico (f i) (f (i + 1)) := by
      rw [subdivide_roi_eq_map]
      ext t
      simp only [Set.mem_iUnion, exists_prop, List.mem_map, List.mem_range, Finset.mem_range]
      constructor
      · rintro ⟨b, ⟨i, hi, rfl⟩, ht⟩
        exact ⟨i, hi, (hbox i hi) ▸ ht⟩
      · rintro ⟨i, hi, ht⟩
        exact ⟨subdivBox x1 y1 x2 y2 n i, ⟨i, hi, rfl⟩, (hbox i hi).symm ▸ ht⟩
    rw [h1, ico_chain_union f n hchain]
    have hf0 : f 0 = x1 := by
      rw [hf]
      simp [show 0 < n by omega]
    have hfn : f n = x2 := by
      rw [hf]
      simp
    rw [hf0, hfn]

/-- Witness for C4: the box `(0, 0, 10, 5)` split into 3 seats. -/
theorem claim_C4_witness :
    (subdivide_roi (0, 0, 10, 5) 3).length = 3 ∧
    (∀ b ∈ subdivide_roi (0, 0, 10, 5) 3, b.2.1 = 0 ∧ b.2.2.2 = 5 ∧ b.1 ≤ b.2.2.1) ∧
    ((subdivide_roi (0, 0, 10, 5) 3)[0]?).map (fun b => b.1) = some 0 ∧
    ((subdivide_roi (0, 0, 10, 5) 3)[3 - 1]?).map (fun b => b.2.2.1) = some 10 ∧
    (∀ i, i + 1 < 3 →
      ((subdivide_roi (0, 0, 10, 5) 3)[i + 1]?).map (fun b => b.1) =
        ((subdivide_roi (0, 0, 10, 5) 3)[i]?).map (fun b => b.2.2.1)) ∧
    (∀ i, i + 1 < 3 →
      ((subdivide_roi (0, 0, 10, 5) 3)[i]?).map (fun b => b.2.2.1 - b.1) =
        some ((10 - 0 : Int).fdiv 3)) ∧
    ((subdivide_roi (0, 0, 10, 5) 3)[3 - 1]?).map (fun b => b.2.2.1 - b.1) =
      some ((10 - 0 : Int).fdiv 3 + (10 - 0 : Int).fmod 3) ∧
    (⋃ b ∈ subdivide_roi (0, 0, 10, 5) 3, boxIco b) = Set.Ico 0 10 :=
  claim_C4 0 0 10 5 3 (by norm_num) (by norm_num)

/-- Claim C3 is false as stated: both `scale_points` (champion matcher) and
`_scale_pts` (bar services) test the normalised-coordinates heuristic
*first*, so with every point inside `[0,1]²` and a `reference_size` of
`(2, 2)` on a 200×100 frame the point `(1/2, 1/2)` resolves to `(100, 50)`
(frame scaling) rather than the reference scaling `(50, 25)` the claim
requires. -/
theorem claim_C3_counterexample :
    scale_points [((1 : ℚ)/2, (1 : ℚ)/2)] 200 100 (some (2, 2)) = [(100, 50)] ∧
    scale_points_spec [((1 : ℚ)/2, (1 : ℚ)/2)] 200 100 (some (2, 2)) = [(50, 25)] ∧
    scale_pts [((1 : ℚ)/2, (1 : ℚ)/2)] 200 100 (some (2, 2)) = [(100, 50)] ∧
    ((100 : Int), (50 : Int)) ≠ ((50 : Int), (25 : Int)) := by
  refine ⟨?_, ?_, ?_, by decide⟩
  · rw [scale_points.eq_def, if_pos (by norm_num)]
    norm_num [pyInt]
  · simp only [scale_points_spec]
    norm_num [pyInt]
  · rw [scale_pts.eq_def, if_pos (by norm_num)]
    norm_num [pyInt]

/-- Claim C3, amended: the *normalised* heuristic takes precedence.  When
every point passes the function's normalised test (x ∈ [0,1] for the
champion matcher, both coordinates for the bar services), points are scaled
by the frame size even when a `reference_size` is present; the reference
scaling `(frame_w/ref_w, frame_h/ref_h)` applies exactly when some point
fails that test. -/
theorem claim_C3_amended (pts : List (ℚ × ℚ)) (fw fh rfw rfh : Int) :
    ((¬ ∀ p ∈ pts, 0 ≤ p.1 ∧ p.1 ≤ 1) →
      scale_points pts fw fh (some (rfw, rfh)) =
        pts.map (fun p => (pyInt (p.1 * ((fw : ℚ) / (rfw : ℚ))),
          pyInt (p.2 * ((fh : ℚ) / (rfh : ℚ)))))) ∧
    ((∀ p ∈ pts, 0 ≤ p.1 ∧ p.1 ≤ 1) → ∀ ref,
      scale_points pts fw fh ref =
        pts.map (fun p => (pyInt (p.1 * fw), pyInt (p.2 * fh)))) ∧
    ((¬ ∀ p ∈ pts, 0 ≤ p.1 ∧ p.1 ≤ 1 ∧ 0 ≤ p.2 ∧ p.2 ≤ 1) →
      scale_pts pts fw fh (some (rfw, rfh)) =
        pts.map (fun p => (pyInt (p.1 * fw / (rfw : ℚ)), pyInt (p.2 * fh / (rfh : ℚ))))) ∧
    ((∀ p ∈ pts, 0 ≤ p.1 ∧ p.1 ≤ 1 ∧ 0 ≤ p.2 ∧ p.2 ≤ 1) → ∀ ref,
      scale_pts pts fw fh ref =
        pts.map (fun p => (pyInt (p.1 * fw), pyInt (p.2 * fh)))) := by
  refine ⟨?_, ?_, ?_, ?_⟩
  · intro h
    rw [scale_points.eq_def, if_neg h]
  · intro h ref
    rw [scale_points.eq_def, if_pos h]
  · intro h
    rw [scale_pts.eq_def, if_neg h]
  · intro h ref
    rw [scale_pts.eq_def, if_pos h]

/-- Witness for C3: a pixel-coordinate point (outside `[0,1]`) is scaled by
the reference resolution, and a normalised point is scaled by the frame even
though a reference is present. -/
theorem claim_C3_witness :
    scale_points [((3 : ℚ), (4 : ℚ))] 200 100 (some (2, 2)) = [(300, 200)] ∧
    scale_points [((1 : ℚ)/4, (1 : ℚ)/4)] 8 8 (some (2, 2)) = [(2, 2)] := by
  constructor
  · have h := (claim_C3_amended [((3 : ℚ), (4 : ℚ))] 200 100 2 2).1 (by norm_num)
    rw [h]
    norm_num [pyInt]
  · have h := ((claim_C3_amended [((1 : ℚ)/4, (1 : ℚ)/4)] 8 8 2 2).2.1
      (by norm_num) (some (2, 2)))
    rw [h]
    norm_num [pyInt]

/-- Claim C5 is false as stated: the seat label is the head of Python's
stable sort, so a tie in the accepted-match count is broken by the iteration
order of the reference set, not by the reference identifier: with the
reversed reference order `b, a` (both counting 3) the label is `b`, while
the identifier tie-break (the spec-side `specSeatLabel`) yields `a`; the
same scores in the order `a, b` yield `a`, so the label depends on the
reference iteration order. -/
theorem claim_C5_counterexample :
    seatLabel [("b", 3), ("a", 3)] = "b" ∧
    specSeatLabel [("b", 3), ("a", 3)] = "a" ∧
    seatLabel [("a", 3), ("b", 3)] = "a" ∧
    "b" ≠ "a" := by
  refine ⟨rfl, by decide, rfl, by decide⟩

/-- Claim C5, amended: for a non-empty score list the seat's label is the
reference with the highest accepted-match count, and a tie is broken by the
position in the reference set's iteration order — the first reference
attaining the maximal count wins (deterministic for a fixed reference
order, but order-dependent). -/
theorem claim_C5_amended (scores : List (String × Nat)) (hne : scores ≠ []) :
    ∃ pre c post, scores = pre ++ (seatLabel scores, c) :: post ∧
      (∀ p ∈ pre, p.2 < c) ∧ (∀ p ∈ scores, p.2 ≤ c) := by
  cases hs : sortScoresDesc scores with
  | nil => exact absurd (sortScoresDesc_eq_nil scores hs) hne
  | cons x rest =>
      have hlbl : seatLabel scores = x.1 := by
        unfold seatLabel extract_and_match_rank
        rw [hs]
        rfl
      obtain ⟨pre, post, hdec, hpre, hall⟩ := sortScoresDesc_head_firstMax scores x rest hs
      refine ⟨pre, x.2, post, ?_, hpre, hall⟩
      rw [hlbl]
      simpa using hdec

/-- Witness for C5: scores `a ↦ 1, b ↦ 5, c ↦ 2`. -/
theorem claim_C5_witness :
    ∃ pre c post, [("a", 1), ("b", 5), ("c", 2)] =
        pre ++ (seatLabel [("a", 1), ("b", 5), ("c", 2)], c) :: post ∧
      (∀ p ∈ pre, p.2 < c) ∧ (∀ p ∈ [("a", 1), ("b", 5), ("c", 2)], p.2 ≤ c) :=
  claim_C5_amended [("a", 1), ("b", 5), ("c", 2)] (by simp)

/-- Claim C7 is false as stated: resolution truncates (`int(x * W)`), it
does not round.  At `(1/2, 1/2)` on a 3×3 frame both resolvers return
`(1, 1)` while rounding `1/2 · 3 = 1.5` gives `2`. -/
theorem claim_C7_counterexample :
    scale_points [((1 : ℚ)/2, (1 : ℚ)/2)] 3 3 none = [(1, 1)] ∧
    scale_pts [((1 : ℚ)/2, (1 : ℚ)/2)] 3 3 none = [(1, 1)] ∧
    pyRoundQ ((1 : ℚ)/2 * 3) = 2 ∧ (1 : Int) ≠ 2 := by
  refine ⟨?_, ?_, by norm_num [pyRoundQ], by decide⟩
  · rw [scale_points.eq_def, if_pos (by norm_num)]
    norm_num [pyInt]
  · rw [scale_pts.eq_def, if_pos (by norm_num)]
    norm_num [pyInt]

/-- Claim C7, amended: for points with both coordinates in `[0,1]` and a
nonnegative frame size, resolving without a reference size returns the
*truncation* `(int(x·W), int(y·H))`, which on these nonnegative products is
the floor `(⌊x·W⌋, ⌊y·H⌋)` — not the rounding the claim states. -/
theorem claim_C7_amended (pts : List (ℚ × ℚ)) (fw fh : Int)
    (hin : ∀ p ∈ pts, 0 ≤ p.1 ∧ p.1 ≤ 1 ∧ 0 ≤ p.2 ∧ p.2 ≤ 1)
    (hw : 0 ≤ fw) (hh : 0 ≤ fh) :
    scale_points pts fw fh none =
      pts.map (fun p => (⌊p.1 * (fw : ℚ)⌋, ⌊p.2 * (fh : ℚ)⌋)) ∧
    scale_pts pts fw fh none =
      pts.map (fun p => (⌊p.1 * (fw : ℚ)⌋, ⌊p.2 * (fh : ℚ)⌋)) := by
  have hmap : pts.map (fun p => (pyInt (p.1 * fw), pyInt (p.2 * fh))) =
      pts.map (fun p => (⌊p.1 * (fw : ℚ)⌋, ⌊p.2 * (fh : ℚ)⌋)) := by
    apply List.map_congr_left
    intro p hp
    obtain ⟨h1, _, h3, _⟩ := hin p hp
    have hq1 : 0 ≤ p.1 * (fw : ℚ) := mul_nonneg h1 (by exact_mod_cast hw)
    have hq2 : 0 ≤ p.2 * (fh : ℚ) := mul_nonneg h3 (by exact_mod_cast hh)
    rw [pyInt_eq_floor _ hq1, pyInt_eq_floor _ hq2]
  constructor
  · rw [scale_points.eq_def, if_pos (fun p hp => ⟨(hin p hp).1, (hin p hp).2.1⟩)]
    exact hmap
  · rw [scale_pts.eq_def, if_pos hin]
    exact hmap

/-- Witness for C7: `(1/4, 3/4)` on an 8×8 frame resolves to the floors
`(2, 6)`. -/
theorem claim_C7_witness :
    scale_points [((1 : ℚ)/4, (3 : ℚ)/4)] 8 8 none = [(2, 6)] ∧
    scale_pts [((1 : ℚ)/4, (3 : ℚ)/4)] 8 8 none = [(2, 6)] := by
  have h := claim_C7_amended [((1 : ℚ)/4, (3 : ℚ)/4)] 8 8 (by norm_num)
    (by norm_num) (by norm_num)
  refine ⟨?_, ?_⟩
  · rw [h.1]
    norm_num
  · rw [h.2]
    norm_num

/-- Claim C8 is false as stated: the reading is rounded to one decimal, so
for a reference width above 1000 px two distinct widths can report the same
percentage — widths 2 and 3 against reference 2001 both read 0.1 — hence
the reading is not strictly increasing in the width. -/
theorem claim_C8_counterexample :
    bar_pct 2 2001 = bar_pct 3 2001 ∧ ¬ bar_pct 2 2001 < bar_pct 3 2001 ∧
    (2 : Int) < 3 ∧ (3 : Int) ≤ 2001 := by
  have h : bar_pct 2 2001 = bar_pct 3 2001 := by
    norm_num [bar_pct, pyRound1, pyRoundQ]
  exact ⟨h, by rw [h]; exact lt_irrefl _, by decide, by decide⟩

/-- Claim C8, amended: for `0 < w ≤ ref` the reported reading
`round(w/ref*100, 1)` lies in `[0, 100]` and is monotone (non-decreasing)
in the width for a fixed reference width; strict growth can fail because of
the one-decimal rounding. -/
theorem claim_C8_amended (w refW : Int) (hw : 0 < w) (hle : w ≤ refW) :
    (0 ≤ bar_pct w refW ∧ bar_pct w refW ≤ 100) ∧
    (∀ w2 : Int, w ≤ w2 → w2 ≤ refW → bar_pct w refW ≤ bar_pct w2 refW) := by
  have href : 0 < refW := lt_of_lt_of_le hw hle
  have hrefQ : (0 : ℚ) < (refW : ℚ) := by exact_mod_cast href
  have harg_nonneg : ∀ v : Int, 0 ≤ v → 0 ≤ 10 * ((v : ℚ) / (refW : ℚ) * 100) := by
    intro v hv
    have : (0 : ℚ) ≤ (v : ℚ) := by exact_mod_cast hv
    positivity
  have harg_le : ∀ v : Int, v ≤ refW → 10 * ((v : ℚ) / (refW : ℚ) * 100) ≤ 1000 := by
    intro v hv
    have hvQ : (v : ℚ) ≤ (refW : ℚ) := by exact_mod_cast hv
    have hdiv : (v : ℚ) / (refW : ℚ) ≤ 1 := div_le_one_of_le₀ hvQ (le_of_lt hrefQ)
    linarith
  have hbar : ∀ v : Int, bar_pct v refW =
      (pyRoundQ (10 * ((v : ℚ) / (refW : ℚ) * 100)) : ℚ) / 10 := fun v => rfl
  have h0 : pyRoundQ ((0 : ℚ)) = 0 := by norm_num [pyRoundQ]
  have h1000 : pyRoundQ ((1000 : ℚ)) = 1000 := by norm_num [pyRoundQ]
  constructor
  · constructor
    · rw [hbar]
      have hge : (0 : Int) ≤ pyRoundQ (10 * ((w : ℚ) / (refW : ℚ) * 100)) :=
        h0 ▸ pyRoundQ_mono (harg_nonneg w (le_of_lt hw))
      have hgeQ : (0 : ℚ) ≤ (pyRoundQ (10 * ((w : ℚ) / (refW : ℚ) * 100)) : ℚ) := by
        exact_mod_cast hge
      linarith
    · rw [hbar]
      have hlt : pyRoundQ (10 * ((w : ℚ) / (refW : ℚ) * 100)) ≤ (1000 : Int) :=
        h1000 ▸ pyRoundQ_mono (harg_le w hle)
      have hltQ : (pyRoundQ (10 * ((w : ℚ) / (refW : ℚ) * 100)) : ℚ) ≤ 1000 := by
        exact_mod_cast hlt
      linarith
  · intro w2 h12 _
    rw [hbar, hbar]
    have hw12 : (w : ℚ) ≤ (w2 : ℚ) := by exact_mod_cast h12
    have hdv : (w : ℚ) / (refW : ℚ) ≤ (w2 : ℚ) / (refW : ℚ) := by gcongr
    have hql : 10 * ((w : ℚ) / (refW : ℚ) * 100) ≤ 10 * ((w2 : ℚ) / (refW : ℚ) * 100) := by
      linarith
    have hmono := pyRoundQ_mono hql
    have hcQ : (pyRoundQ (10 * ((w : ℚ) / (refW : ℚ) * 100)) : ℚ) ≤
        (pyRoundQ (10 * ((w2 : ℚ) / (refW : ℚ) * 100)) : ℚ) := by exact_mod_cast hmono
    linarith

/-- Witness for C8: width 50 against reference 100 reads within `[0, 100]`
and is no larger than the reading of width 75. -/
theorem claim_C8_witness :
    (0 ≤ bar_pct 50 100 ∧ bar_pct 50 100 ≤ 100) ∧ bar_pct 50 100 ≤ bar_pct 75 100 :=
  ⟨(claim_C8_amended 50 100 (by decide) (by decide)).1,
   (claim_C8_amended 50 100 (by decide) (by decide)).2 75 (by decide) (by decide)⟩

/-- Claim C9: in the red-bar variant, two small fragments (width under the
75 px cutoff, heights in the detector's 10–25 px band) whose positions
differ by 60 px horizontally and 5 px vertically are clustered (centre
distances are within `X_GAP`/`Y_GAP`) and merged into a single rectangle
spanning both; a third small fragment at least 500 px to the right of both
joins no cluster and, being a singleton, is dropped. -/
theorem claim_C9 (x y w1 h1 w2 h2 w3 h3 x3 y3 : Int) (r1id r2id r3id : Nat)
    (c1 c2 c3 : Int × Int × Int)
    (hw1p : 0 ≤ w1) (hw2p : 0 ≤ w2) (hw3p : 0 ≤ w3)
    (hw1 : w1 < SMALL_W_MAX) (hw2 : w2 < SMALL_W_MAX) (hw3 : w3 < SMALL_W_MAX)
    (hh1l : 10 ≤ h1) (hh1u : h1 ≤ 25) (hh2l : 10 ≤ h2) (hh2u : h2 ≤ 25)
    (hh3l : 10 ≤ h3) (hh3u : h3 ≤ 25)
    (hx3 : x + 560 ≤ x3) :
    ∃ r : Rect,
      fusionar_pequenos [⟨x, y, w1, h1, r1id, c1⟩, ⟨x + 60, y + 5, w2, h2, r2id, c2⟩,
          ⟨x3, y3, w3, h3, r3id, c3⟩] = [r] ∧
      r.x = x ∧ r.y = y ∧ r.w = max (x + w1) (x + 60 + w2) - x ∧
      r.h = max (y + h1) (y + 5 + h2) - y ∧ r.rid = r1id := by
  have hw1' : w1 < 75 := hw1
  have hw2' : w2 < 75 := hw2
  have hw3' : w3 < 75 := hw3
  have hd : ∀ v : Int, v.fdiv 2 = v / 2 := fun v => Int.fdiv_eq_ediv v (by norm_num)
  have hc12 : closeB ⟨x, y, w1, h1, r1id, c1⟩ ⟨x + 60, y + 5, w2, h2, r2id, c2⟩ = true := by
    simp only [closeB, X_GAP, Y_GAP, hd, decide_eq_true_eq, abs_le]
    omega
  have hc13 : closeB ⟨x, y, w1, h1, r1id, c1⟩ ⟨x3, y3, w3, h3, r3id, c3⟩ = false := by
    apply decide_eq_false
    simp only [hd, abs_le, X_GAP, Y_GAP, not_and, not_le]
    intro hcon
    omega
  have hc23 : closeB ⟨x + 60, y + 5, w2, h2, r2id, c2⟩ ⟨x3, y3, w3, h3, r3id, c3⟩ = false := by
    apply decide_eq_false
    simp only [hd, abs_le, X_GAP, Y_GAP, not_and, not_le]
    intro hcon
    omega
  have hlarge : ([⟨x, y, w1, h1, r1id, c1⟩, ⟨x + 60, y + 5, w2, h2, r2id, c2⟩,
      ⟨x3, y3, w3, h3, r3id, c3⟩] : List Rect).filter (fun r => SMALL_W_MAX ≤ r.w) = [] := by
    rw [List.filter_cons_of_neg (by simp [SMALL_W_MAX]; omega),
        List.filter_cons_of_neg (by simp [SMALL_W_MAX]; omega),
        List.filter_cons_of_neg (by simp [SMALL_W_MAX]; omega)]
    rfl
  have hsmall : ([⟨x, y, w1, h1, r1id, c1⟩, ⟨x + 60, y + 5, w2, h2, r2id, c2⟩,
      ⟨x3, y3, w3, h3, r3id, c3⟩] : List Rect).filter (fun r => r.w < SMALL_W_MAX) =
      [⟨x, y, w1, h1, r1id, c1⟩, ⟨x + 60, y + 5, w2, h2, r2id, c2⟩,
       ⟨x3, y3, w3, h3, r3id, c3⟩] := by
    rw [List.filter_cons_of_pos (by simp [SMALL_W_MAX]; omega),
        List.filter_cons_of_pos (by simp [SMALL_W_MAX]; omega),
        List.filter_cons_of_pos (by simp [SMALL_W_MAX]; omega)]
    rfl
  have hb2 : bfsClust [⟨x + 60, y + 5, w2, h2, r2id, c2⟩] [⟨x3, y3, w3, h3, r3id, c3⟩] =
      ([⟨x + 60, y + 5, w2, h2, r2id, c2⟩], [⟨x3, y3, w3, h3, r3id, c3⟩]) := by
    simp only [bfsClust]
    rw [List.filter_cons_of_neg (by simp [hc23]), List.filter_cons_of_pos (by simp [hc23])]
    simp [bfsClust]
  have hb1 : bfsClust [⟨x, y, w1, h1, r1id, c1⟩]
      [⟨x + 60, y + 5, w2, h2, r2id, c2⟩, ⟨x3, y3, w3, h3, r3id, c3⟩] =
      ([⟨x, y, w1, h1, r1id, c1⟩, ⟨x + 60, y + 5, w2, h2, r2id, c2⟩],
       [⟨x3, y3, w3, h3, r3id, c3⟩]) := by
    simp only [bfsClust]
    rw [List.filter_cons_of_pos (by simp [hc12]), List.filter_cons_of_neg (by simp [hc13]),
        List.filter_cons_of_neg (by simp [hc12]), List.filter_cons_of_pos (by simp [hc13])]
    simp only [List.filter_nil, List.nil_append, hb2]
  have hb3 : bfsClust [⟨x3, y3, w3, h3, r3id, c3⟩] ([] : List Rect) =
      ([⟨x3, y3, w3, h3, r3id, c3⟩], []) := by
    simp [bfsClust]
  have hclusters : clusterize [⟨x, y, w1, h1, r1id, c1⟩, ⟨x + 60, y + 5, w2, h2, r2id, c2⟩,
      ⟨x3, y3, w3, h3, r3id, c3⟩] =
      [[⟨x, y, w1, h1, r1id, c1⟩, ⟨x + 60, y + 5, w2, h2, r2id, c2⟩],
       [⟨x3, y3, w3, h3, r3id, c3⟩]] := by
    simp only [clusterize, hb1, hb3]
  have hminx : min x (x + 60) = x := min_eq_left (by omega)
  have hminy : min y (y + 5) = y := min_eq_left (by omega)
  cases hmg : mergeGroup [⟨x, y, w1, h1, r1id, c1⟩, ⟨x + 60, y + 5, w2, h2, r2id, c2⟩] with
  | none =>
      exfalso
      simp only [mergeGroup] at hmg
      exact Option.noConfusion hmg
  | some B =>
      have hmg0 := hmg
      simp only [mergeGroup, List.map_cons, List.map_nil, List.foldl_cons, List.foldl_nil,
        List.zip_cons_cons, List.zip_nil_right, min_self, max_self, hminx, hminy,
        Option.some.injEq] at hmg
      refine ⟨B, ?_, ?_, ?_, ?_, ?_, ?_⟩
      · simp only [fusionar_pequenos]
        rw [hlarge, hsmall, hclusters]
        simp only [List.filterMap_cons, List.filterMap_nil, hmg0]
        rfl
      · rw [← hmg]
      · rw [← hmg]
      · rw [← hmg]
      · rw [← hmg]
      · rw [← hmg]

/-- Witness for C9: fragments at `(0,0)` and `(60,5)` (both 50×12) merge
into one rectangle spanning both; the fragment at `(560,0)` is dropped. -/
theorem claim_C9_witness :
    ∃ r : Rect,
      fusionar_pequenos [⟨0, 0, 50, 12, 1, (0, 0, 0)⟩, ⟨0 + 60, 0 + 5, 50, 12, 2, (0, 0, 0)⟩,
          ⟨560, 7, 50, 12, 3, (0, 0, 0)⟩] = [r] ∧
      r.x = 0 ∧ r.y = 0 ∧ r.w = max (0 + 50) (0 + 60 + 50) - 0 ∧
      r.h = max (0 + 12) (0 + 5 + 12) - 0 ∧ r.rid = 1 :=
  claim_C9 0 0 50 12 50 12 50 12 560 7 1 2 3 (0, 0, 0) (0, 0, 0) (0, 0, 0)
    (by decide) (by decide) (by decide) (by decide) (by decide) (by decide)
    (by decide) (by decide) (by decide) (by decide) (by decide) (by decide)
    (by decide)
